import Mathlib

/-!
Verification of the `epi_t1_nonlinear` pipeline repository.

Part 1 embeds the executable fragments of `src/epi_t1_nonlinear.py`:
the inline transform function `calc_inversion`, the selector functions
`get_aparc_aseg`, `first_element`, `second_element`, and the workflow
construction performed by `create_epi_t1_nonlinear_pipeline`.
Python floats appearing in `calc_inversion` are modelled as exact
rationals; Python exceptions are modelled with `Except`.

Parts 2-4 model the execution core described by the specification
(fingerprinting, cached execution, skip propagation, validation).
That engine is not part of the repository's source; each of those
definitions is modelled from the spec, as indicated in its doc comment.
-/

namespace EpiT1

/-- Python substring test `pat in s`, used by `get_aparc_aseg`. -/
def containsSub (s pat : String) : Prop := pat.data <:+: s.data

instance (s pat : String) : Decidable (containsSub s pat) :=
  List.decidableInfix pat.data s.data

/-- Python values a selector can deliver: `None` or a string. -/
inductive PyVal where
  | pyNone : PyVal
  | pystr : String → PyVal
deriving DecidableEq

/-- Error raised during selector evaluation on an edge.  The source code
raises `IndexError`; the specification names the condition SelectionError. -/
inductive SelErr where
  | selectionError : SelErr
deriving DecidableEq

/-- `get_aparc_aseg` from the source (lines 93-96): iterate over `files` and
return the first name containing the substring `'aparc+aseg'`.  When no name
matches, the Python loop falls through and the function returns `None`. -/
def get_aparc_aseg : List String → PyVal
  | [] => .pyNone
  | n :: rest => if containsSub n "aparc+aseg" then .pystr n else get_aparc_aseg rest

/-- Edge resolution through `get_aparc_aseg`: the Python function never
raises, so the selector always delivers its return value (possibly `None`). -/
def resolve_aparc_aseg (files : List String) : Except SelErr PyVal :=
  .ok (get_aparc_aseg files)

/-- Python list indexing `l[i]` for a nonnegative index: raises `IndexError`
when the index is out of range. -/
def pyGetItem {α : Type} (l : List α) (i : Nat) : Except SelErr α :=
  match l.get? i with
  | some v => .ok v
  | none => .error .selectionError

/-- `second_element` from the source (lines 221-222): `return file_list[1]`. -/
def second_element {α : Type} (file_list : List α) : Except SelErr α :=
  pyGetItem file_list 1

/-- `first_element` from the source (lines 224-225): `return file_list[0]`. -/
def first_element {α : Type} (file_list : List α) : Except SelErr α :=
  pyGetItem file_list 0

/-- Failure of the pure transform function; the source raises
`ZeroDivisionError`, reported by the specification as ComputationError. -/
inductive CompErr where
  | computationError : CompErr
deriving DecidableEq

/-- `calc_inversion` from the source (lines 170-173), over exact rationals:
`mul = -(epi_min_max[1]-epi_min_max[0])/(anat_min_max[1]-anat_min_max[0])`,
`add = abs(anat_min_max[1]*mul)+epi_min_max[0]`.  Division by a zero-width
anatomical range raises (modelled as `.error`). -/
def calc_inversion (anat_min_max epi_min_max : ℚ × ℚ) : Except CompErr (ℚ × ℚ) :=
  if anat_min_max.2 - anat_min_max.1 = 0 then .error .computationError
  else
    let mul := -(epi_min_max.2 - epi_min_max.1) / (anat_min_max.2 - anat_min_max.1)
    .ok (mul, |anat_min_max.2 * mul| + epi_min_max.1)

/-- The selector (if any) attached to a nipype connection in the source. -/
inductive SelectorTag where
  | identity : SelectorTag
  | getAparcAseg : SelectorTag
  | filenameToList : SelectorTag
  | firstElement : SelectorTag
  | secondElement : SelectorTag
deriving DecidableEq

/-- One `nonreg.connect(...)` call: source node and slot, selector, destination
node and slot. -/
structure Connection where
  src : String
  srcSlot : String
  sel : SelectorTag
  dst : String
  dstSlot : String
deriving DecidableEq

/-- The nipype `Workflow` object as far as the script configures it: its name
and the list of connections registered on it. -/
structure Workflow where
  name : String
  connections : List Connection
deriving DecidableEq

/-- `create_epi_t1_nonlinear_pipeline` from the source (lines 14-236).  The
function takes a `name` parameter but constructs the workflow as
`Workflow(name='epi_t1_nonlinear')`, never using the parameter.  The
connections transcribe every `nonreg.connect` call in source order. -/
def create_epi_t1_nonlinear_pipeline (name : String) : Workflow :=
  { name := "epi_t1_nonlinear"
    connections :=
      [ ⟨"inputnode", "realigned_epi", .identity, "tmean", "in_file"⟩
      , ⟨"inputnode", "fs_subjects_dir", .identity, "freesurfer_import", "subjects_dir"⟩
      , ⟨"inputnode", "fs_subject_id", .identity, "freesurfer_import", "subject_id"⟩
      , ⟨"freesurfer_import", "brain", .identity, "mriconvert", "in_file"⟩
      , ⟨"inputnode", "fs_subjects_dir", .identity, "bbregister", "subjects_dir"⟩
      , ⟨"inputnode", "fs_subject_id", .identity, "bbregister", "subject_id"⟩
      , ⟨"tmean", "out_file", .identity, "bbregister", "source_file"⟩
      , ⟨"tmean", "out_file", .identity, "itk", "source_file"⟩
      , ⟨"mriconvert", "out_file", .identity, "itk", "reference_file"⟩
      , ⟨"bbregister", "out_fsl_file", .identity, "itk", "transform_file"⟩
      , ⟨"freesurfer_import", "aparc_aseg", .getAparcAseg, "aparc_aseg_mask", "in_file"⟩
      , ⟨"aparc_aseg_mask", "binary_file", .identity, "fillholes", "in_file"⟩
      , ⟨"tmean", "out_file", .identity, "fov", "in_file"⟩
      , ⟨"itk", "itk_transform", .filenameToList, "fov_trans", "transforms"⟩
      , ⟨"fov", "binary_file", .identity, "fov_trans", "input_image"⟩
      , ⟨"fillholes", "out_file", .identity, "fov_trans", "reference_image"⟩
      , ⟨"fillholes", "out_file", .identity, "intersect", "in_file"⟩
      , ⟨"fov_trans", "output_image", .identity, "intersect", "operand_file"⟩
      , ⟨"itk", "itk_transform", .filenameToList, "mask_trans", "transforms"⟩
      , ⟨"intersect", "out_file", .identity, "mask_trans", "input_image"⟩
      , ⟨"tmean", "out_file", .identity, "mask_trans", "reference_image"⟩
      , ⟨"mask_trans", "output_image", .identity, "maskepi", "mask_file"⟩
      , ⟨"tmean", "out_file", .identity, "maskepi", "in_file"⟩
      , ⟨"intersect", "out_file", .identity, "maskanat", "mask_file"⟩
      , ⟨"mriconvert", "out_file", .identity, "maskanat", "in_file"⟩
      , ⟨"maskanat", "out_file", .identity, "anat_min_max", "in_file"⟩
      , ⟨"tmean", "out_file", .identity, "epi_min_max", "in_file"⟩
      , ⟨"anat_min_max", "out_stat", .identity, "calcinv", "anat_min_max"⟩
      , ⟨"epi_min_max", "out_stat", .identity, "calcinv", "epi_min_max"⟩
      , ⟨"maskanat", "out_file", .identity, "mulinv", "in_file"⟩
      , ⟨"calcinv", "mul", .identity, "mulinv", "operand_value"⟩
      , ⟨"mulinv", "out_file", .identity, "addinv", "in_file"⟩
      , ⟨"calcinv", "add", .identity, "addinv", "operand_value"⟩
      , ⟨"itk", "itk_transform", .identity, "antsreg", "initial_moving_transform"⟩
      , ⟨"maskepi", "out_file", .identity, "antsreg", "fixed_image"⟩
      , ⟨"addinv", "out_file", .identity, "antsreg", "moving_image"⟩
      , ⟨"itk", "itk_transform", .identity, "outputnode", "lin_epi2anat"⟩
      , ⟨"antsreg", "forward_transforms", .firstElement, "outputnode", "lin_anat2epi"⟩
      , ⟨"antsreg", "forward_transforms", .secondElement, "outputnode", "nonlin_anat2epi"⟩
      , ⟨"antsreg", "reverse_transforms", .secondElement, "outputnode", "nonlin_epi2anat"⟩ ] }

end EpiT1

namespace Fingerprint

/-- Modelled from the spec: the relation that canonicalization sorts resolved
input slots by — comparison of slot names. -/
def keyLe {V : Type} (a b : String × V) : Prop := a.1 ≤ b.1

instance {V : Type} : DecidableRel (@keyLe V) :=
  fun a b => inferInstanceAs (Decidable (a.1 ≤ b.1))

instance {V : Type} : IsTotal (String × V) (@keyLe V) :=
  ⟨fun a b => le_total a.1 b.1⟩

instance {V : Type} : IsTrans (String × V) (@keyLe V) :=
  ⟨fun a b c hab hbc => le_trans hab hbc⟩

/-- Modelled from the spec: canonicalize a resolved-input assignment by
sorting the slot names before hashing. -/
def canonicalize {V : Type} (inputs : List (String × V)) : List (String × V) :=
  inputs.insertionSort (@keyLe V)

/-- Modelled from the spec: `fingerprint(node, resolvedInputs)` — a
deterministic digest over the node's descriptor identity/version tag and the
canonicalized resolved inputs.  The digest is modelled as the canonical tuple
itself (an injective digest). -/
def fingerprint {V : Type} (descriptor : String × Nat) (inputs : List (String × V)) :
    (String × Nat) × List (String × V) :=
  (descriptor, canonicalize inputs)

end Fingerprint

namespace Engine

/-- Modelled from the spec: terminal per-node execution state after a run.
`completed` carries the node's output value (`Cached` immediately becomes
`Completed`, so both are represented by `completed`). -/
inductive NState (V : Type) where
  | completed : V → NState V
  | failed : NState V
  | skipped : NState V
deriving DecidableEq

/-- Modelled from the spec: a node of the execution graph — identity, whether
its work is an external-tool invocation (vs. an in-process transform), the
ids of the nodes its input edges come from, and its work as a function from
resolved input values to `some` output or `none` (failure). -/
structure GNode (V : Type) where
  id : Nat
  external : Bool
  deps : List Nat
  compute : List V → Option V

/-- Modelled from the spec: executor state — the Result Store, the
fingerprint cache, and the log of external-tool invocations performed. -/
structure ExecSt (V : Type) where
  results : List (Nat × NState V)
  cache : List ((Nat × List V) × V)
  log : List Nat

/-- Fresh executor state with an empty cache. -/
def initSt {V : Type} : ExecSt V := ⟨[], [], []⟩

/-- Look up a node's state in the Result Store. -/
def findRes {V : Type} : List (Nat × NState V) → Nat → Option (NState V)
  | [], _ => none
  | (k, s) :: rest, x => if k = x then some s else findRes rest x

/-- Look up a fingerprint in the cache. -/
def findCache {V : Type} [DecidableEq V] :
    List ((Nat × List V) × V) → (Nat × List V) → Option V
  | [], _ => none
  | (k, v) :: rest, fp => if k = fp then some v else findCache rest fp

/-- Resolve one input edge: the producer must have completed. -/
def resolveOne {V : Type} (results : List (Nat × NState V)) (d : Nat) : Option V :=
  match findRes results d with
  | some (.completed v) => some v
  | _ => none

/-- Resolve all input edges of a node, in order. -/
def resolveDeps {V : Type} (results : List (Nat × NState V)) : List Nat → Option (List V)
  | [] => some []
  | d :: ds =>
    match resolveOne results d, resolveDeps results ds with
    | some v, some vs => some (v :: vs)
    | _, _ => none

/-- Modelled from the spec (§4.4): process one node.  A node with an
unresolvable input (a failed or skipped ancestor) is skipped without
computing a fingerprint.  Otherwise its fingerprint is looked up in the
cache: a hit completes the node with the cached value and no invocation; a
miss invokes the node's work (logged when external), then stores outputs and
the cache entry on success, or marks the node failed on failure. -/
def stepNode {V : Type} [DecidableEq V] (st : ExecSt V) (n : GNode V) : ExecSt V :=
  match resolveDeps st.results n.deps with
  | none => ⟨(n.id, .skipped) :: st.results, st.cache, st.log⟩
  | some vals =>
    match findCache st.cache (n.id, vals) with
    | some v => ⟨(n.id, .completed v) :: st.results, st.cache, st.log⟩
    | none =>
      match n.compute vals with
      | some v =>
        ⟨(n.id, .completed v) :: st.results, ((n.id, vals), v) :: st.cache,
          if n.external then st.log ++ [n.id] else st.log⟩
      | none =>
        ⟨(n.id, .failed) :: st.results, st.cache,
          if n.external then st.log ++ [n.id] else st.log⟩

/-- Modelled from the spec: execute the nodes of a graph in the (topological)
order in which they are listed. -/
def run {V : Type} [DecidableEq V] : List (GNode V) → ExecSt V → ExecSt V
  | [], st => st
  | n :: rest, st => run rest (stepNode st n)

/-- The node ids of a graph, in order. -/
def ids {V : Type} (g : List (GNode V)) : List Nat := g.map (fun n => n.id)

/-- Every node's dependencies lie among the ids seen earlier. -/
def topoOkAux {V : Type} : List Nat → List (GNode V) → Bool
  | _, [] => true
  | seen, n :: rest =>
    n.deps.all (fun d => decide (d ∈ seen)) && topoOkAux (n.id :: seen) rest

/-- The listed order is topological: each node's dependencies precede it. -/
def topoOk {V : Type} (g : List (GNode V)) : Bool := topoOkAux [] g

/-- Whether a Result Store entry is a completion. -/
def isCompletedRes {V : Type} : Option (NState V) → Bool
  | some (.completed _) => true
  | _ => false

/-- Whether a Result Store entry is a failure or a skip. -/
def isBadRes {V : Type} : Option (NState V) → Bool
  | some .failed => true
  | some .skipped => true
  | _ => false

/-- `Anc g a t`: node id `a` is an ancestor of node id `t` along input edges
of the graph `g`. -/
inductive Anc {V : Type} (g : List (GNode V)) : Nat → Nat → Prop where
  | direct {n : GNode V} {d : Nat} : n ∈ g → d ∈ n.deps → Anc g d n.id
  | tail {a d : Nat} {n : GNode V} : Anc g a d → n ∈ g → d ∈ n.deps → Anc g a n.id

/-- Concrete failing node used as a counterexample/witness graph. -/
def nodeA : GNode Nat := ⟨0, true, [], fun _ => none⟩

/-- Concrete node depending on `nodeA`. -/
def nodeB : GNode Nat := ⟨1, true, [0], fun _ => some 1⟩

/-- Concrete node depending on `nodeA`, independent of `nodeB`. -/
def nodeC : GNode Nat := ⟨2, true, [0], fun _ => some 2⟩

/-- Concrete node with no graph dependencies. -/
def nodeD : GNode Nat := ⟨3, true, [], fun _ => some 3⟩

/-- Witness graph for failure isolation: A→B, A→C, D isolated, A fails. -/
def gFail : List (GNode Nat) := [nodeA, nodeB, nodeC, nodeD]

/-- Witness graph whose first run completes every node. -/
def gOk : List (GNode Nat) :=
  [⟨0, true, [], fun _ => some 7⟩, ⟨1, true, [0], fun vs => some (vs.headD 0 + 1)⟩]

/-- Counterexample graph: its only (external) node always fails, so nothing
is cached and a second run invokes the tool again. -/
def gBadCache : List (GNode Nat) := [⟨0, true, [], fun _ => none⟩]

end Engine

namespace Validate

/-- Modelled from the spec (§3, §4.1): the shape of a graph submitted to
`validate()` — its node names, directed edges, required input slots and the
slots bound by an edge or literal. -/
structure VGraph where
  nodes : List Nat
  edges : List (Nat × Nat)
  required : List (Nat × String)
  bound : List (Nat × String)

/-- Well-formed graph: distinct node names, edges between declared nodes. -/
def WF (g : VGraph) : Prop :=
  g.nodes.Nodup ∧ ∀ e ∈ g.edges, e.1 ∈ g.nodes ∧ e.2 ∈ g.nodes

/-- The graph contains a cycle: some node reaches itself through at least one
edge. -/
def HasCycle (g : VGraph) : Prop :=
  ∃ n, Relation.TransGen (fun a b => (a, b) ∈ g.edges) n n

/-- A node is ready for removal when no remaining node has an edge into it. -/
def ready (edges : List (Nat × Nat)) (rem : List Nat) (n : Nat) : Bool :=
  decide (∀ e ∈ edges, e.2 = n → e.1 ∉ rem)

/-- Kahn-style peeling: repeatedly remove the ready nodes; all nodes can be
removed iff the edge relation restricted to them is acyclic. -/
def peel (edges : List (Nat × Nat)) : Nat → List Nat → Bool
  | 0, rem => rem.isEmpty
  | fuel + 1, rem =>
    if rem.isEmpty then true
    else if (rem.filter (ready edges rem)).isEmpty then false
    else peel edges fuel (rem.filter (fun n => !(ready edges rem n)))

/-- Modelled from the spec: the cycle check run by `validate()`. -/
def acyclicB (g : VGraph) : Bool := peel g.edges g.nodes.length g.nodes

/-- Modelled from the spec: every required input slot is bound. -/
def bindingsOk (g : VGraph) : Bool := decide (∀ r ∈ g.required, r ∈ g.bound)

/-- Validation errors (§4.1). -/
inductive VError where
  | cycleError : VError
  | missingBindingError : VError
deriving DecidableEq

/-- Modelled from the spec (§4.1): `validate()` fails with CycleError if a
cycle exists, or MissingBindingError if a required input slot is unbound. -/
def validate (g : VGraph) : Except VError Unit :=
  if acyclicB g then
    if bindingsOk g then .ok () else .error .missingBindingError
  else .error .cycleError

/-- Modelled from the spec: execution is entered only through successful
validation; on success the executor receives the node schedule, on failure no
execution starts and the validation error is the result. -/
def runPipeline (g : VGraph) : Except VError (List Nat) :=
  match validate g with
  | .error e => .error e
  | .ok _ => .ok g.nodes

/-- Concrete acyclic, fully bound witness graph. -/
def gAcyclic : VGraph := ⟨[0, 1], [(0, 1)], [(1, "in_file")], [(1, "in_file")]⟩

/-- Concrete cyclic witness graph (a self-loop). -/
def gCyclic : VGraph := ⟨[0], [(0, 0)], [], []⟩

end Validate

namespace EpiT1

/-- Helper: `get_aparc_aseg` returns Python `None` when no file name in the
list contains the substring `'aparc+aseg'`. -/
theorem get_aparc_aseg_none (files : List String)
    (h : ∀ n ∈ files, ¬ containsSub n "aparc+aseg") :
    get_aparc_aseg files = .pyNone := by
  induction files with
  | nil => rfl
  | cons a rest ih =>
    rw [get_aparc_aseg, if_neg (h a (List.mem_cons_self a rest))]
    exact ih (fun n hn => h n (List.mem_cons_of_mem a hn))

/-- Claim C1: with resolved inputs `anat_min_max = (0, 10)` and
`epi_min_max = (0, 100)`, `calc_inversion` returns the multiplier
`mul = -(100-0)/(10-0) = -10` (together with `add = |10 * -10| + 0 = 100`). -/
theorem calc_inversion_rescale_example :
    calc_inversion (0, 10) (0, 100) = .ok (-10, 100) := by
  rw [calc_inversion, if_neg (by norm_num)]
  norm_num

/-- Claim C2, counterexample: for the input `["brain.mgz"]`, no element
contains `'aparc+aseg'`, yet edge resolution through `get_aparc_aseg` does
not fail — it delivers the ordinary value Python `None` to the consuming
input slot, contradicting the claim that every selector fails with
SelectionError when no matching element exists. -/
theorem aparc_selector_none_counterexample :
    resolve_aparc_aseg ["brain.mgz"] = .ok .pyNone ∧
      ¬ containsSub "brain.mgz" "aparc+aseg" := by
  constructor
  · rfl
  · decide

/-- Claim C2 (amended): the index-based selector `second_element` fails (with
the SelectionError of the spec, an `IndexError` in the code) on any sequence
of length below two, delivering no ordinary value; the substring selector
`get_aparc_aseg`, however, never fails: when no element matches it resolves
successfully to the ordinary value Python `None`. -/
theorem selector_failure_modes (α : Type) (l : List α) (files : List String)
    (hl : l.length < 2) (hf : ∀ n ∈ files, ¬ containsSub n "aparc+aseg") :
    second_element l = .error .selectionError ∧
      resolve_aparc_aseg files = .ok .pyNone := by
  constructor
  · rw [second_element, pyGetItem, List.get?_eq_none.2 (Nat.lt_succ_iff.1 hl)]
  · rw [resolve_aparc_aseg, get_aparc_aseg_none files hf]

/-- Witness for `selector_failure_modes` at `l = []`, `files = ["brain.mgz"]`. -/
theorem selector_failure_modes_witness :
    second_element ([] : List Nat) = .error .selectionError ∧
      resolve_aparc_aseg ["brain.mgz"] = .ok .pyNone :=
  selector_failure_modes Nat [] ["brain.mgz"] (by decide) (by decide)

/-- Claim C3: `calc_inversion` is a pure in-process computation whose only
failure mode is the domain error on a zero-width anatomical range
(`anat_min_max[1] = anat_min_max[0]`), reported as ComputationError; for
every pair of two-element numeric inputs with nonzero anatomical range width
it completes and returns the `(mul, add)` pair of the documented formula. -/
theorem calc_inversion_domain (a e : ℚ × ℚ) :
    (a.2 = a.1 → calc_inversion a e = .error .computationError) ∧
    (a.2 ≠ a.1 → calc_inversion a e =
      .ok (-(e.2 - e.1) / (a.2 - a.1),
        |a.2 * (-(e.2 - e.1) / (a.2 - a.1))| + e.1)) := by
  constructor
  · intro h
    rw [calc_inversion, if_pos (by rw [h, sub_self])]
  · intro h
    rw [calc_inversion, if_neg (sub_ne_zero.2 h)]

/-- Witness for `calc_inversion_domain`: the zero-width case at
`a = (2, 2)` and the generic case at `a = (0, 1)`, `e = (0, 2)`. -/
theorem calc_inversion_domain_witness :
    calc_inversion (2, 2) (0, 5) = .error .computationError ∧
      calc_inversion (0, 1) (0, 2) =
        .ok (-(2 - 0) / (1 - 0), |(1 : ℚ) * (-(2 - 0) / (1 - 0))| + 0) :=
  ⟨(calc_inversion_domain (2, 2) (0, 5)).1 rfl,
    (calc_inversion_domain (0, 1) (0, 2)).2 (by norm_num)⟩

/-- Claim C4: on any upstream output sequence `[x0, x1, ...]` of length at
least two, the "second element" selector delivers exactly the element at
index 1 to the consuming input slot. -/
theorem second_element_delivers_index_one (α : Type) (x0 x1 : α) (rest : List α) :
    second_element (x0 :: x1 :: rest) = .ok x1 := rfl

/-- Claim C9: whatever string is passed for the `name` parameter, the
workflow built by `create_epi_t1_nonlinear_pipeline` is named by the fixed
string `'epi_t1_nonlinear'`; in particular the documented example call with
`'nipype_epi_t1_nonlin'` is ignored. -/
theorem pipeline_name_ignores_argument (s : String) :
    (create_epi_t1_nonlinear_pipeline s).name = "epi_t1_nonlinear" := rfl

/-- Claim C10: whenever the file list decomposes as a prefix of non-matching
names followed by a matching name `m`, `get_aparc_aseg` returns `m` — the
first name containing `'aparc+aseg'` in list order; later elements cannot
shadow it. -/
theorem aparc_selector_first_match (pre : List String) (m : String) (post : List String)
    (hpre : ∀ n ∈ pre, ¬ containsSub n "aparc+aseg")
    (hm : containsSub m "aparc+aseg") :
    get_aparc_aseg (pre ++ m :: post) = .pystr m := by
  induction pre with
  | nil =>
    rw [List.nil_append, get_aparc_aseg, if_pos hm]
  | cons a rest ih =>
    rw [List.cons_append, get_aparc_aseg,
      if_neg (hpre a (List.mem_cons_self a rest))]
    exact ih (fun n hn => hpre n (List.mem_cons_of_mem a hn))

/-- Witness for `aparc_selector_first_match` with a non-matching name before
and another name after the match. -/
theorem aparc_selector_first_match_witness :
    get_aparc_aseg ["brain.mgz", "aparc+aseg.mgz", "aparc+aseg2.mgz"] =
      .pystr "aparc+aseg.mgz" :=
  aparc_selector_first_match ["brain.mgz"] "aparc+aseg.mgz" ["aparc+aseg2.mgz"]
    (by decide) (by decide)

end EpiT1

namespace Fingerprint

/-- Helper: two permutation-equal lists that are both sorted by slot name and
whose slot names are distinct are equal. -/
theorem sorted_perm_nodup_keys_eq {V : Type} :
    ∀ (l₁ l₂ : List (String × V)), l₁.Perm l₂ →
      l₁.Sorted (@keyLe V) → l₂.Sorted (@keyLe V) →
      (l₁.map Prod.fst).Nodup → l₁ = l₂ := by
  intro l₁
  induction l₁ with
  | nil =>
    intro l₂ hp _ _ _
    exact hp.nil_eq
  | cons a t₁ ih =>
    intro l₂ hp hs₁ hs₂ hnd
    cases l₂ with
    | nil => exact absurd hp.eq_nil (by simp)
    | cons b t₂ =>
      have hab : a = b := by
        by_contra hne
        have hbmem : b ∈ a :: t₁ := hp.mem_iff.2 (List.mem_cons_self b t₂)
        have hamem : a ∈ b :: t₂ := hp.mem_iff.1 (List.mem_cons_self a t₁)
        have hbt₁ : b ∈ t₁ := by
          rcases List.mem_cons.1 hbmem with h | h
          · exact absurd h.symm hne
          · exact h
        have hat₂ : a ∈ t₂ := by
          rcases List.mem_cons.1 hamem with h | h
          · exact absurd h hne
          · exact h
        have h1 : keyLe a b := (List.pairwise_cons.1 hs₁).1 b hbt₁
        have h2 : keyLe b a := (List.pairwise_cons.1 hs₂).1 a hat₂
        have hkey : a.1 = b.1 := le_antisymm h1 h2
        have : a.1 ∈ t₁.map Prod.fst := by
          rw [hkey]
          exact List.mem_map_of_mem Prod.fst hbt₁
        exact (List.nodup_cons.1 hnd).1 this
      subst hab
      have ht : t₁ = t₂ :=
        ih t₂ hp.cons_inv (List.pairwise_cons.1 hs₁).2
          (List.pairwise_cons.1 hs₂).2 (List.nodup_cons.1 hnd).2
      rw [ht]

end Fingerprint

namespace Fingerprint

/-- Claim C6: fingerprints are deterministic and independent of the order in
which input slots are declared or supplied — any two fingerprint computations
for the same node descriptor over value-equal resolved inputs (the same
slot-to-value assignment, with distinct slot names, listed in any order)
produce equal fingerprints, because canonicalization sorts slot names before
hashing. -/
theorem fingerprint_slot_order_independent {V : Type} (d : String × Nat)
    (in1 in2 : List (String × V)) (hperm : in1.Perm in2)
    (hnd : (in1.map Prod.fst).Nodup) :
    fingerprint d in1 = fingerprint d in2 := by
  unfold fingerprint canonicalize
  have hp : (in1.insertionSort (@keyLe V)).Perm (in2.insertionSort (@keyLe V)) :=
    ((List.perm_insertionSort (@keyLe V) in1).trans hperm).trans
      (List.perm_insertionSort (@keyLe V) in2).symm
  have hnd1 : ((in1.insertionSort (@keyLe V)).map Prod.fst).Nodup :=
    (((List.perm_insertionSort (@keyLe V) in1).map Prod.fst).nodup_iff).2 hnd
  rw [sorted_perm_nodup_keys_eq (in1.insertionSort (@keyLe V))
    (in2.insertionSort (@keyLe V)) hp
    (List.sorted_insertionSort (@keyLe V) in1)
    (List.sorted_insertionSort (@keyLe V) in2) hnd1]

/-- Witness for `fingerprint_slot_order_independent`: the two-slot assignment
`{a ↦ 1, b ↦ 2}` supplied in both orders. -/
theorem fingerprint_slot_order_independent_witness :
    fingerprint ("calcinv", 1) [("epi_min_max", 2), ("anat_min_max", 1)] =
      fingerprint ("calcinv", 1) [("anat_min_max", (1 : Nat)), ("epi_min_max", 2)] :=
  fingerprint_slot_order_independent ("calcinv", 1)
    [("epi_min_max", 2), ("anat_min_max", 1)]
    [("anat_min_max", 1), ("epi_min_max", 2)]
    (by decide) (by decide)

end Fingerprint

namespace Engine

/-- Helper: a step writes exactly one Result Store entry, for its own node. -/
theorem stepNode_results {V : Type} [DecidableEq V] (st : ExecSt V) (n : GNode V) :
    ∃ s, (stepNode st n).results = (n.id, s) :: st.results := by
  unfold stepNode
  split
  · exact ⟨_, rfl⟩
  · split
    · exact ⟨_, rfl⟩
    · split
      · exact ⟨_, rfl⟩
      · exact ⟨_, rfl⟩

/-- Helper: a step either leaves the cache unchanged or adds one entry keyed
by its own node id. -/
theorem stepNode_cache {V : Type} [DecidableEq V] (st : ExecSt V) (n : GNode V) :
    (stepNode st n).cache = st.cache ∨
      ∃ vals v, (stepNode st n).cache = ((n.id, vals), v) :: st.cache := by
  unfold stepNode
  split
  · exact Or.inl rfl
  · split
    · exact Or.inl rfl
    · split
      · exact Or.inr ⟨_, _, rfl⟩
      · exact Or.inl rfl

/-- Helper: a step either leaves the log unchanged or appends its own id. -/
theorem stepNode_log {V : Type} [DecidableEq V] (st : ExecSt V) (n : GNode V) :
    (stepNode st n).log = st.log ∨ (stepNode st n).log = st.log ++ [n.id] := by
  unfold stepNode
  split
  · exact Or.inl rfl
  · split
    · exact Or.inl rfl
    · split
      · split
        · exact Or.inr rfl
        · exact Or.inl rfl
      · split
        · exact Or.inr rfl
        · exact Or.inl rfl

/-- Helper: running nodes whose ids avoid `x` does not change the Result
Store entry of `x`. -/
theorem run_results_frame {V : Type} [DecidableEq V] (l : List (GNode V))
    (st : ExecSt V) (x : Nat) (h : ∀ n ∈ l, n.id ≠ x) :
    findRes (run l st).results x = findRes st.results x := by
  induction l generalizing st with
  | nil => rfl
  | cons n rest ih =>
    rw [run, ih (stepNode st n) (fun m hm => h m (List.mem_cons_of_mem n hm))]
    obtain ⟨s, hs⟩ := stepNode_results st n
    rw [hs, findRes, if_neg (h n (List.mem_cons_self n rest))]

/-- Helper: running nodes whose ids avoid the id of a fingerprint does not
change that fingerprint's cache entry. -/
theorem run_cache_frame {V : Type} [DecidableEq V] (l : List (GNode V))
    (st : ExecSt V) (fp : Nat × List V) (h : ∀ n ∈ l, n.id ≠ fp.1) :
    findCache (run l st).cache fp = findCache st.cache fp := by
  induction l generalizing st with
  | nil => rfl
  | cons n rest ih =>
    rw [run, ih (stepNode st n) (fun m hm => h m (List.mem_cons_of_mem n hm))]
    rcases stepNode_cache st n with hc | ⟨vals, v, hc⟩
    · rw [hc]
    · rw [hc, findCache, if_neg]
      intro hk
      exact h n (List.mem_cons_self n rest) (congrArg Prod.fst hk)

/-- Helper: log entries produced by a run come from the initial log or from
the ids of the executed nodes. -/
theorem run_log_subset {V : Type} [DecidableEq V] (l : List (GNode V))
    (st : ExecSt V) (x : Nat) (hx : x ∈ (run l st).log) :
    x ∈ st.log ∨ x ∈ ids l := by
  induction l generalizing st with
  | nil => exact Or.inl hx
  | cons n rest ih =>
    rw [run] at hx
    rcases ih (stepNode st n) hx with h | h
    · rcases stepNode_log st n with hl | hl
      · rw [hl] at h
        exact Or.inl h
      · rw [hl] at h
        rcases List.mem_append.1 h with h2 | h2
        · exact Or.inl h2
        · rcases List.mem_singleton.1 h2 with rfl
          exact Or.inr (List.mem_cons_self n.id _)
    · exact Or.inr (List.mem_cons_of_mem n.id h)

/-- Helper: cache entries produced by a run come from the initial cache or
are keyed by an executed node's id. -/
theorem run_cache_ids {V : Type} [DecidableEq V] (l : List (GNode V))
    (st : ExecSt V) (e : (Nat × List V) × V) (he : e ∈ (run l st).cache) :
    e ∈ st.cache ∨ e.1.1 ∈ ids l := by
  induction l generalizing st with
  | nil => exact Or.inl he
  | cons n rest ih =>
    rw [run] at he
    rcases ih (stepNode st n) he with h | h
    · rcases stepNode_cache st n with hc | ⟨vals, v, hc⟩
      · rw [hc] at h
        exact Or.inl h
      · rw [hc] at h
        rcases List.mem_cons.1 h with h2 | h2
        · rw [h2]
          exact Or.inr (List.mem_cons_self n.id _)
        · exact Or.inl h2
    · exact Or.inr (List.mem_cons_of_mem n.id h)

/-- Helper: a fingerprint whose node id appears in no cache key is absent. -/
theorem findCache_eq_none {V : Type} [DecidableEq V]
    (c : List ((Nat × List V) × V)) (fp : Nat × List V)
    (h : ∀ e ∈ c, e.1.1 ≠ fp.1) : findCache c fp = none := by
  induction c with
  | nil => rfl
  | cons e rest ih =>
    obtain ⟨⟨k, v⟩, hrest⟩ : ∃ p, e = p := ⟨e, rfl⟩
    rw [hrest, findCache, if_neg]
    · exact ih (fun x hx => h x (List.mem_cons_of_mem e hx))
    · intro hk
      exact h e (List.mem_cons_self e rest)
        (by rw [hrest, hk])

/-- Helper: a dependency whose producer did not complete makes the whole
input resolution fail. -/
theorem resolveDeps_none_of_mem {V : Type} (results : List (Nat × NState V))
    (deps : List Nat) (d : Nat) (hd : d ∈ deps)
    (h : resolveOne results d = none) : resolveDeps results deps = none := by
  induction deps with
  | nil => exact absurd hd (List.not_mem_nil d)
  | cons a rest ih =>
    rcases List.mem_cons.1 hd with rfl | hmem
    · rw [resolveDeps, h]
    · rw [resolveDeps, ih hmem]
      rcases resolveOne results a with _ | v
      · rfl
      · rfl

/-- Helper: splitting a run at an intermediate point. -/
theorem run_append {V : Type} [DecidableEq V] (p rest : List (GNode V))
    (st : ExecSt V) : run (p ++ rest) st = run rest (run p st) := by
  induction p generalizing st with
  | nil => rfl
  | cons n t ih => rw [List.cons_append, run, run, ih]

/-- Helper: ids of an append-cons decomposition. -/
theorem ids_append_cons {V : Type} (p : List (GNode V)) (n : GNode V)
    (rest : List (GNode V)) :
    ids (p ++ n :: rest) = ids p ++ n.id :: ids rest := by
  unfold ids
  rw [List.map_append, List.map_cons]

/-- Helper: a node's dependencies precede it in a topologically ordered
graph. -/
theorem topoOkAux_deps_seen {V : Type} :
    ∀ (p : List (GNode V)) (seen : List Nat) (n : GNode V) (rest : List (GNode V)),
      topoOkAux seen (p ++ n :: rest) = true →
      ∀ d ∈ n.deps, d ∈ ids p ∨ d ∈ seen := by
  intro p
  induction p with
  | nil =>
    intro seen n rest h d hd
    rw [List.nil_append, topoOkAux, Bool.and_eq_true] at h
    exact Or.inr (of_decide_eq_true (List.all_eq_true.1 h.1 d hd))
  | cons m t ih =>
    intro seen n rest h d hd
    rw [List.cons_append, topoOkAux, Bool.and_eq_true] at h
    rcases ih (m.id :: seen) n rest h.2 d hd with h2 | h2
    · exact Or.inl (List.mem_cons_of_mem m.id h2)
    · rcases List.mem_cons.1 h2 with h3 | h3
      · rw [h3]
        exact Or.inl (List.mem_cons_self m.id (ids t))
      · exact Or.inr h3

end Engine

namespace Engine

/-- Helper: a node's id is among the graph's ids. -/
theorem mem_ids {V : Type} (m : GNode V) (l : List (GNode V)) (h : m ∈ l) :
    m.id ∈ ids l :=
  List.mem_map_of_mem (fun n => n.id) h

/-- Helper: if one of node `n`'s direct dependencies ends the run failed or
skipped, then `n` ends the run skipped and its tool is never invoked. -/
theorem skip_one_step {V : Type} [DecidableEq V] (g : List (GNode V))
    (hn : (ids g).Nodup) (ht : topoOk g = true)
    (n : GNode V) (hng : n ∈ g) (d : Nat) (hd : d ∈ n.deps)
    (hbad : isBadRes (findRes (run g initSt).results d) = true) :
    findRes (run g initSt).results n.id = some NState.skipped ∧
      n.id ∉ (run g initSt).log := by
  obtain ⟨p, rest, hp⟩ := List.append_of_mem hng
  have hids : ids g = ids p ++ n.id :: ids rest := by
    rw [hp]
    exact ids_append_cons p n rest
  have hnodup := hn
  rw [hids, List.nodup_append] at hnodup
  have hnidp : n.id ∉ ids p := fun hmem =>
    hnodup.2.2 hmem (List.mem_cons_self n.id (ids rest))
  have hnidrest : n.id ∉ ids rest := (List.nodup_cons.1 hnodup.2.1).1
  have hdp : d ∈ ids p := by
    rcases topoOkAux_deps_seen p [] n rest (by rw [← hp]; exact ht) d hd with h | h
    · exact h
    · exact absurd h (List.not_mem_nil d)
  have hnidd : n.id ≠ d := fun h => hnidp (h ▸ hdp)
  have hdner : ∀ m ∈ rest, m.id ≠ d := by
    intro m hm heq
    exact hnodup.2.2 (heq ▸ hdp) (List.mem_cons_of_mem n.id (mem_ids m rest hm))
  have hrun : run g initSt = run rest (stepNode (run p initSt) n) := by
    rw [hp, run_append, run]
  have hbadp : isBadRes (findRes (run p initSt).results d) = true := by
    rw [hrun, run_results_frame rest _ d hdner] at hbad
    obtain ⟨s, hs⟩ := stepNode_results (run p initSt) n
    rw [hs, findRes, if_neg hnidd] at hbad
    exact hbad
  have hro : resolveOne (run p initSt).results d = none := by
    rcases hfd : findRes (run p initSt).results d with _ | s
    · rw [resolveOne, hfd]
    · rw [hfd] at hbadp
      cases s with
      | completed v => simp [isBadRes] at hbadp
      | failed => rw [resolveOne, hfd]
      | skipped => rw [resolveOne, hfd]
  have hrd : resolveDeps (run p initSt).results n.deps = none :=
    resolveDeps_none_of_mem _ n.deps d hd hro
  have hstep : stepNode (run p initSt) n =
      ⟨(n.id, NState.skipped) :: (run p initSt).results, (run p initSt).cache,
        (run p initSt).log⟩ := by
    rw [stepNode, hrd]
  have hfr : ∀ m ∈ rest, m.id ≠ n.id := fun m hm heq =>
    hnidrest (heq ▸ mem_ids m rest hm)
  constructor
  · rw [hrun, run_results_frame rest _ n.id hfr, hstep, findRes, if_pos rfl]
  · intro hmem
    rw [hrun] at hmem
    rcases run_log_subset rest _ n.id hmem with h | h
    · rw [hstep] at h
      rcases run_log_subset p initSt n.id h with h2 | h2
      · exact List.not_mem_nil n.id h2
      · exact hnidp h2
    · exact hnidrest h

/-- Helper: a node with no graph dependencies whose pure work succeeds ends
the run completed with its computed value. -/
theorem complete_no_deps {V : Type} [DecidableEq V] (g : List (GNode V))
    (hn : (ids g).Nodup) (n : GNode V) (hng : n ∈ g)
    (hdeps : n.deps = []) (v : V) (hv : n.compute [] = some v) :
    findRes (run g initSt).results n.id = some (NState.completed v) := by
  obtain ⟨p, rest, hp⟩ := List.append_of_mem hng
  have hids : ids g = ids p ++ n.id :: ids rest := by
    rw [hp]
    exact ids_append_cons p n rest
  have hnodup := hn
  rw [hids, List.nodup_append] at hnodup
  have hnidp : n.id ∉ ids p := fun hmem =>
    hnodup.2.2 hmem (List.mem_cons_self n.id (ids rest))
  have hnidrest : n.id ∉ ids rest := (List.nodup_cons.1 hnodup.2.1).1
  have hrun : run g initSt = run rest (stepNode (run p initSt) n) := by
    rw [hp, run_append, run]
  have hmiss : findCache (run p initSt).cache (n.id, []) = none := by
    apply findCache_eq_none
    intro e he
    rcases run_cache_ids p initSt e he with h | h
    · exact absurd h (List.not_mem_nil e)
    · intro heq
      have heq2 : e.1.1 = n.id := heq
      exact hnidp (heq2 ▸ h)
  have hstep : stepNode (run p initSt) n =
      ⟨(n.id, NState.completed v) :: (run p initSt).results,
        ((n.id, []), v) :: (run p initSt).cache,
        if n.external then (run p initSt).log ++ [n.id] else (run p initSt).log⟩ := by
    simp only [stepNode, hdeps, resolveDeps, hmiss, hv]
  have hfr : ∀ m ∈ rest, m.id ≠ n.id := fun m hm heq =>
    hnidrest (heq ▸ mem_ids m rest hm)
  rw [hrun, run_results_frame rest _ n.id hfr, hstep, findRes, if_pos rfl]

/-- Helper: skips propagate along ancestor chains — if any ancestor of `t`
ends the run failed or skipped, `t` ends the run skipped, uninvoked. -/
theorem skip_propagates {V : Type} [DecidableEq V] (g : List (GNode V))
    (hn : (ids g).Nodup) (ht : topoOk g = true) :
    ∀ a t, Anc g a t → isBadRes (findRes (run g initSt).results a) = true →
      findRes (run g initSt).results t = some NState.skipped ∧
        t ∉ (run g initSt).log := by
  intro a t hanc
  induction hanc with
  | direct hmem hdd =>
    intro hbad
    exact skip_one_step g hn ht _ hmem _ hdd hbad
  | tail hanc2 hmem hdd ih =>
    intro hbad
    have hds := (ih hbad).1
    exact skip_one_step g hn ht _ hmem _ hdd (by rw [hds]; rfl)

/-- Claim C7: failure isolation.  In any well-formed topologically ordered
graph, every node with at least one failed or skipped ancestor ends the run
in the Skipped state and its underlying tool is never invoked (its id never
enters the invocation log); in particular, for edges A→B and A→C with A
failed, both B and C are skipped and uninvoked.  Moreover every node that
depends only on literal bindings (no input edges) and whose work succeeds
still reaches Completed. -/
theorem failure_isolation {V : Type} [DecidableEq V] (g : List (GNode V))
    (hn : (ids g).Nodup) (ht : topoOk g = true) :
    (∀ n, n ∈ g → ∀ a, Anc g a n.id →
      isBadRes (findRes (run g initSt).results a) = true →
      findRes (run g initSt).results n.id = some NState.skipped ∧
        n.id ∉ (run g initSt).log) ∧
    (∀ n, n ∈ g → n.deps = [] → ∀ v, n.compute [] = some v →
      findRes (run g initSt).results n.id = some (NState.completed v)) := by
  constructor
  · intro n _ a hanc hbad
    exact skip_propagates g hn ht a n.id hanc hbad
  · intro n hng hdeps v hv
    exact complete_no_deps g hn n hng hdeps v hv

/-- Witness for `failure_isolation` on the concrete graph `gFail`
(A→B, A→C, D isolated, A failing): B is skipped and never invoked, and D
completes. -/
theorem failure_isolation_witness :
    (findRes (run gFail initSt).results 1 = some NState.skipped ∧
      1 ∉ (run gFail initSt).log) ∧
    findRes (run gFail initSt).results 3 = some (NState.completed 3) := by
  have h := failure_isolation gFail (by decide) (by decide)
  constructor
  · exact h.1 nodeB (List.mem_cons_of_mem nodeA (List.mem_cons_self nodeB _)) 0
      (Anc.direct (List.mem_cons_of_mem nodeA (List.mem_cons_self nodeB _))
        (List.mem_cons_self 0 []))
      (by decide)
  · exact h.2 nodeD
      (List.mem_cons_of_mem nodeA (List.mem_cons_of_mem nodeB
        (List.mem_cons_of_mem nodeC (List.mem_cons_self nodeD []))))
      rfl 3 rfl

end Engine

namespace Engine

/-- Helper simulation: once a run has completed every node, a rerun from the
final cache reproduces the Result Store exactly, performing no external
invocation — stated for an arbitrary split of the graph. -/
theorem rerun_sim {V : Type} [DecidableEq V] (g : List (GNode V))
    (hn : (ids g).Nodup)
    (hc : ∀ n, n ∈ g → isCompletedRes (findRes (run g initSt).results n.id) = true) :
    ∀ rest p, g = p ++ rest →
      (run rest ⟨(run p initSt).results, (run g initSt).cache, []⟩).results
          = (run g initSt).results ∧
      (run rest ⟨(run p initSt).results, (run g initSt).cache, []⟩).log = [] := by
  intro rest
  induction rest with
  | nil =>
    intro p hp
    constructor
    · rw [hp, List.append_nil]
      rfl
    · rfl
  | cons n rest ih =>
    intro p hp
    have hids : ids g = ids p ++ n.id :: ids rest := by
      rw [hp]
      exact ids_append_cons p n rest
    have hnodup := hn
    rw [hids, List.nodup_append] at hnodup
    have hnidp : n.id ∉ ids p := fun hmem =>
      hnodup.2.2 hmem (List.mem_cons_self n.id (ids rest))
    have hnidrest : n.id ∉ ids rest := (List.nodup_cons.1 hnodup.2.1).1
    have hfr : ∀ m ∈ rest, m.id ≠ n.id := fun m hm heq =>
      hnidrest (heq ▸ mem_ids m rest hm)
    have hrun : run g initSt = run rest (stepNode (run p initSt) n) := by
      rw [hp, run_append, run]
    have hcomp : isCompletedRes
        (findRes (stepNode (run p initSt) n).results n.id) = true := by
      rw [← run_results_frame rest (stepNode (run p initSt) n) n.id hfr, ← hrun]
      exact hc n (by rw [hp]; exact List.mem_append_right p (List.mem_cons_self n rest))
    rcases hre : resolveDeps (run p initSt).results n.deps with _ | vals
    · exfalso
      have hsk : (stepNode (run p initSt) n).results =
          (n.id, NState.skipped) :: (run p initSt).results := by
        rw [stepNode, hre]
      rw [hsk, findRes, if_pos rfl] at hcomp
      simp [isCompletedRes] at hcomp
    · have hmiss : findCache (run p initSt).cache (n.id, vals) = none := by
        apply findCache_eq_none
        intro e he
        rcases run_cache_ids p initSt e he with h | h
        · exact absurd h (List.not_mem_nil e)
        · intro heq
          have heq2 : e.1.1 = n.id := heq
          exact hnidp (heq2 ▸ h)
      rcases hcompu : n.compute vals with _ | v
      · exfalso
        have hfl : (stepNode (run p initSt) n).results =
            (n.id, NState.failed) :: (run p initSt).results := by
          simp only [stepNode, hre, hmiss, hcompu]
        rw [hfl, findRes, if_pos rfl] at hcomp
        simp [isCompletedRes] at hcomp
      · have hstep1 : stepNode (run p initSt) n =
            ⟨(n.id, NState.completed v) :: (run p initSt).results,
              ((n.id, vals), v) :: (run p initSt).cache,
              if n.external then (run p initSt).log ++ [n.id]
              else (run p initSt).log⟩ := by
          simp only [stepNode, hre, hmiss, hcompu]
        have hCfin : findCache (run g initSt).cache (n.id, vals) = some v := by
          rw [hrun, run_cache_frame rest _ _ hfr, hstep1, findCache, if_pos rfl]
        have hstep2 : stepNode
            (⟨(run p initSt).results, (run g initSt).cache, []⟩ : ExecSt V) n =
            ⟨(n.id, NState.completed v) :: (run p initSt).results,
              (run g initSt).cache, []⟩ := by
          simp only [stepNode, hre, hCfin]
        have hres1 : (run (p ++ [n]) initSt).results =
            (n.id, NState.completed v) :: (run p initSt).results := by
          rw [run_append, run, run, hstep1]
        rw [run, hstep2, ← hres1]
        exact ih (p ++ [n]) (by rw [hp, List.append_assoc, List.singleton_append])

/-- Claim C5 (amended): for every graph with distinct node ids whose first
run completes every node, re-executing the unchanged graph starting from the
first run's cache yields an identical Result Store (identical
requested-output values) and an empty invocation log — zero external-tool
invocations, every node resolving from the cache. -/
theorem rerun_cached_idempotent {V : Type} [DecidableEq V] (g : List (GNode V))
    (hn : (ids g).Nodup)
    (hc : ∀ n, n ∈ g → isCompletedRes (findRes (run g initSt).results n.id) = true) :
    (run g ⟨[], (run g initSt).cache, []⟩).results = (run g initSt).results ∧
      (run g ⟨[], (run g initSt).cache, []⟩).log = [] :=
  rerun_sim g hn hc g [] rfl

/-- Witness for `rerun_cached_idempotent` on the two-node graph `gOk`. -/
theorem rerun_cached_idempotent_witness :
    (run gOk ⟨[], (run gOk initSt).cache, []⟩).results = (run gOk initSt).results ∧
      (run gOk ⟨[], (run gOk initSt).cache, []⟩).log = [] :=
  rerun_cached_idempotent gOk (by decide) (by decide)

/-- Claim C5, counterexample: on the one-node graph `gBadCache` whose only
(external) node fails, nothing is cached by the first run, so the second run
invokes the external tool again — its invocation log is not empty,
contradicting the claim that for every graph the second run performs zero
external-tool invocations. -/
theorem rerun_counterexample :
    (run gBadCache ⟨[], (run gBadCache initSt).cache, []⟩).log ≠ [] := by
  decide

end Engine

namespace Validate

/-- Helper: a node is not ready exactly when some edge from a remaining node
enters it. -/
theorem ready_false_iff (edges : List (Nat × Nat)) (rem : List Nat) (n : Nat) :
    ready edges rem n = false ↔ ∃ e ∈ edges, e.2 = n ∧ e.1 ∈ rem := by
  rw [ready, decide_eq_false_iff_not]
  push_neg
  rfl

/-- Helper: following a backward chain of edges yields a transitive path. -/
theorem trans_chain (edges : List (Nat × Nat)) (f : Nat → Nat)
    (hstep : ∀ k, (f (k + 1), f k) ∈ edges) :
    ∀ j i, i < j → Relation.TransGen (fun a b => (a, b) ∈ edges) (f j) (f i) := by
  intro j
  induction j with
  | zero => exact fun i h => absurd h (Nat.not_lt_zero i)
  | succ j ih =>
    intro i hij
    rcases Nat.lt_succ_iff_lt_or_eq.1 hij with h | h
    · exact Relation.TransGen.head (hstep j) (ih i h)
    · rw [h]
      exact Relation.TransGen.single (hstep j)

/-- Helper: if every remaining node has a predecessor among the remaining
nodes, the edge relation has a cycle. -/
theorem cycle_of_all_preds (edges : List (Nat × Nat)) (rem : List Nat)
    (hnd : rem.Nodup) (x0 : Nat) (hx0 : x0 ∈ rem)
    (hpred : ∀ n ∈ rem, ∃ m, m ∈ rem ∧ (m, n) ∈ edges) :
    ∃ n, Relation.TransGen (fun a b => (a, b) ∈ edges) n n := by
  classical
  let F : {x // x ∈ rem} → {x // x ∈ rem} := fun x =>
    ⟨(hpred x.1 x.2).choose, (hpred x.1 x.2).choose_spec.1⟩
  let f : Nat → {x // x ∈ rem} := fun k => F^[k] ⟨x0, hx0⟩
  have hstep : ∀ k, ((f (k + 1)).1, (f k).1) ∈ edges := by
    intro k
    have h1 : f (k + 1) = F (f k) := Function.iterate_succ_apply' F k ⟨x0, hx0⟩
    rw [h1]
    exact (hpred (f k).1 (f k).2).choose_spec.2
  have hchain := trans_chain edges (fun k => (f k).1) hstep
  have hcard : rem.toFinset.card < (Finset.univ : Finset (Fin (rem.length + 1))).card := by
    rw [List.toFinset_card_of_nodup hnd, Finset.card_univ, Fintype.card_fin]
    omega
  obtain ⟨i, -, j, -, hne, heq⟩ :=
    Finset.exists_ne_map_eq_of_card_lt_of_maps_to hcard
      (fun (k : Fin (rem.length + 1)) _ => List.mem_toFinset.2 (f k.1).2)
  rcases lt_trichotomy i j with h | h | h
  · refine ⟨(f i.1).1, ?_⟩
    have h2 : Relation.TransGen (fun a b => (a, b) ∈ edges) (f j.1).1 (f i.1).1 :=
      hchain j.1 i.1 h
    rw [← heq] at h2
    exact h2
  · exact absurd h hne
  · refine ⟨(f j.1).1, ?_⟩
    have h2 : Relation.TransGen (fun a b => (a, b) ∈ edges) (f i.1).1 (f j.1).1 :=
      hchain i.1 j.1 h
    rw [heq] at h2
    exact h2

/-- Helper: a family of nodes each having a predecessor in the family pins
the peeling procedure: it can never drain the remaining list. -/
theorem peel_false_of_stuck (edges : List (Nat × Nat)) (S : Nat → Prop) (x0 : Nat)
    (h0 : S x0) (hpred : ∀ n, S n → ∃ m, S m ∧ (m, n) ∈ edges) :
    ∀ fuel rem, (∀ n, S n → n ∈ rem) → peel edges fuel rem = false := by
  intro fuel
  induction fuel with
  | zero =>
    intro rem hrem
    cases rem with
    | nil => exact absurd (hrem x0 h0) (List.not_mem_nil x0)
    | cons a l => rfl
  | succ fuel ih =>
    intro rem hrem
    have hne : rem.isEmpty = false := by
      cases rem with
      | nil => exact absurd (hrem x0 h0) (List.not_mem_nil x0)
      | cons a l => rfl
    have hSnr : ∀ n, S n → ready edges rem n = false := by
      intro n hSn
      rw [ready_false_iff]
      obtain ⟨m, hSm, hedge⟩ := hpred n hSn
      exact ⟨(m, n), hedge, rfl, hrem m hSm⟩
    have hrem2 : ∀ n, S n → n ∈ rem.filter (fun n => !(ready edges rem n)) := by
      intro n hSn
      exact List.mem_filter.2 ⟨hrem n hSn, by rw [hSnr n hSn]; rfl⟩
    rw [peel, hne]
    cases hrdy : (rem.filter (ready edges rem)).isEmpty with
    | true => simp [hrdy]
    | false =>
      simp only [hrdy, Bool.false_eq_true, if_false]
      exact ih _ hrem2

/-- Helper: with an acyclic edge relation the peeling procedure drains any
duplicate-free remaining list within its length as fuel. -/
theorem peel_true_of_no_cycle (edges : List (Nat × Nat))
    (hnc : ∀ n, ¬ Relation.TransGen (fun a b => (a, b) ∈ edges) n n) :
    ∀ fuel rem, rem.Nodup → rem.length ≤ fuel → peel edges fuel rem = true := by
  intro fuel
  induction fuel with
  | zero =>
    intro rem _ hl
    rw [List.eq_nil_of_length_eq_zero (Nat.le_zero.1 hl)]
    rfl
  | succ fuel ih =>
    intro rem hnd hl
    cases hne : rem.isEmpty with
    | true => rw [peel, hne, if_pos rfl]
    | false =>
      have hnenil : rem ≠ [] := by
        cases rem with
        | nil => exact absurd hne (by rw [List.isEmpty_nil]; exact Bool.true_eq_false ▸ (by simp))
        | cons a l => exact List.cons_ne_nil a l
      rw [peel, hne]
      have hready : ∃ x ∈ rem, ready edges rem x = true := by
        by_contra hno
        push_neg at hno
        have hall : ∀ n ∈ rem, ready edges rem n = false := by
          intro n hn
          cases h : ready edges rem n with
          | true => exact absurd h (hno n hn)
          | false => rfl
        have hpred : ∀ n ∈ rem, ∃ m, m ∈ rem ∧ (m, n) ∈ edges := by
          intro n hn
          obtain ⟨e, he, h2, h1⟩ := (ready_false_iff edges rem n).1 (hall n hn)
          exact ⟨e.1, h1, by rw [show ((e.1, n) : Nat × Nat) = e from by rw [← h2]]; exact he⟩
        obtain ⟨x0, hx0⟩ := List.exists_mem_of_ne_nil rem hnenil
        obtain ⟨c, hcyc⟩ := cycle_of_all_preds edges rem hnd x0 hx0 hpred
        exact hnc c hcyc
      have hrdyne : (rem.filter (ready edges rem)).isEmpty = false := by
        obtain ⟨x, hx, hr⟩ := hready
        have : x ∈ rem.filter (ready edges rem) := List.mem_filter.2 ⟨hx, hr⟩
        cases hfe : (rem.filter (ready edges rem)) with
        | nil => rw [hfe] at this; exact absurd this (List.not_mem_nil x)
        | cons a l => rfl
      rw [hrdyne]
      simp only [Bool.false_eq_true, if_false]
      apply ih _ (hnd.filter _)
      have hlt : (rem.filter (fun n => !(ready edges rem n))).length < rem.length := by
        apply List.length_filter_lt_length_iff_exists.2
        obtain ⟨x, hx, hr⟩ := hready
        exact ⟨x, hx, by rw [hr]; simp⟩
      omega

/-- Helper: the executable cycle check agrees with the semantic acyclicity of
a well-formed graph. -/
theorem acyclicB_iff_no_cycle (g : VGraph) (hwf : WF g) :
    acyclicB g = true ↔ ¬ HasCycle g := by
  constructor
  · intro hac hcyc
    obtain ⟨n, hn⟩ := hcyc
    have hfalse : peel g.edges g.nodes.length g.nodes = false := by
      refine peel_false_of_stuck g.edges
        (fun m => Relation.TransGen (fun a b => (a, b) ∈ g.edges) n m ∧
          Relation.ReflTransGen (fun a b => (a, b) ∈ g.edges) m n)
        n ⟨hn, Relation.ReflTransGen.refl⟩ ?_ g.nodes.length g.nodes ?_
      · rintro m ⟨htg, hrt⟩
        cases htg with
        | single h => exact ⟨n, ⟨hn, Relation.ReflTransGen.refl⟩, h⟩
        | tail htg2 h => exact ⟨_, ⟨htg2, Relation.ReflTransGen.head h hrt⟩, h⟩
      · rintro m ⟨htg, -⟩
        cases htg with
        | single h => exact (hwf.2 _ h).2
        | tail htg2 h => exact (hwf.2 _ h).2
    rw [acyclicB, hfalse] at hac
    exact Bool.false_ne_true hac
  · intro hnc
    exact peel_true_of_no_cycle g.edges (fun m hm => hnc ⟨m, hm⟩)
      g.nodes.length g.nodes hwf.1 (le_refl _)

/-- Helper: a rank function increasing along every edge rules out cycles. -/
theorem noCycle_of_rank (g : VGraph) (rank : Nat → Nat)
    (h : ∀ e ∈ g.edges, rank e.1 < rank e.2) : ¬ HasCycle g := by
  rintro ⟨n, hn⟩
  have hmono : ∀ a b, Relation.TransGen (fun a b => (a, b) ∈ g.edges) a b →
      rank a < rank b := by
    intro a b hab
    induction hab with
    | single h1 => exact h _ h1
    | tail hab2 h1 ih => exact lt_trans ih (h _ h1)
  exact lt_irrefl _ (hmono n n hn)

/-- Claim C8: for every well-formed acyclic graph whose required input slots
are all bound, `validate()` succeeds; for every well-formed graph containing
a cycle, `validate()` fails with CycleError, and the pipeline entry point
refuses to start execution, returning that error instead of a schedule. -/
theorem validate_cycle_correct (g1 g2 : VGraph) (h1 : WF g1)
    (hnc : ¬ HasCycle g1) (hb : bindingsOk g1 = true)
    (h2 : WF g2) (hcy : HasCycle g2) :
    validate g1 = .ok () ∧ validate g2 = .error .cycleError ∧
      runPipeline g2 = .error .cycleError := by
  have hac1 : acyclicB g1 = true := (acyclicB_iff_no_cycle g1 h1).2 hnc
  have hac2 : acyclicB g2 = false := by
    cases h : acyclicB g2 with
    | false => rfl
    | true => exact absurd hcy ((acyclicB_iff_no_cycle g2 h2).1 h)
  refine ⟨?_, ?_, ?_⟩
  · rw [validate, hac1, if_pos rfl, hb, if_pos rfl]
  · rw [validate, hac2]
    rfl
  · rw [runPipeline, validate, hac2]
    rfl

/-- Witness for `validate_cycle_correct`: the acyclic bound graph `gAcyclic`
and the self-loop graph `gCyclic`. -/
theorem validate_cycle_correct_witness :
    validate gAcyclic = .ok () ∧ validate gCyclic = .error .cycleError ∧
      runPipeline gCyclic = .error .cycleError :=
  validate_cycle_correct gAcyclic gCyclic (by unfold WF; decide)
    (noCycle_of_rank gAcyclic (fun n => n) (by decide)) (by decide)
    (by unfold WF; decide)
    ⟨0, Relation.TransGen.single (List.mem_cons_self (0, 0) [])⟩

end Validate
